import Mathlib

/-!
Verification model of `greppetto.py`, a line-oriented pattern-search tool.

The program delegates matching to Python's `re` module.  We model the engine
over a core regex language (`Regex`): empty string, single character, any
character, concatenation, alternation and Kleene star.  The function
`ends r s` enumerates, in the backtracking engine's preference order
(greedy star, left alternative first), the lengths of the prefixes of `s`
matched by `r`; `matchEnd` takes the engine's first choice, and `finditer`
reproduces the `re.finditer` scanning loop of CPython (>= 3.7): scan
left-to-right, resume after the end of the previous match, and advance by
one position after a zero-width match.

Strings are modelled as `List Char`.  Python's `str.strip()` is modelled by
`pyStrip` over the ASCII whitespace characters it removes.  Fallible Python
operations (pattern compilation raising `re.error`, list indexing raising
`IndexError`, `ValueError` from the formatter factory) are modelled with
`Except` / `Option`.
-/

/-- Core regex abstract syntax.  `re.compile` of a pattern string yields a
compiled pattern; we model the compiled form.  `emptyStr` is the regex
matching only the empty string (in particular the compiled form of the
empty pattern `""`, which `re.compile` accepts). -/
inductive Regex where
  | emptyStr : Regex
  | char (c : Char) : Regex
  | anyChar : Regex
  | seq (r1 r2 : Regex) : Regex
  | alt (r1 r2 : Regex) : Regex
  | star (r : Regex) : Regex
deriving DecidableEq, Repr

/-- The matching relation: `RMatch r s` holds when regex `r` matches the
whole string `s`. -/
inductive RMatch : Regex → List Char → Prop where
  | emptyStr : RMatch .emptyStr []
  | char (c : Char) : RMatch (.char c) [c]
  | anyChar (c : Char) : RMatch .anyChar [c]
  | seq {r1 r2 s1 s2} : RMatch r1 s1 → RMatch r2 s2 → RMatch (.seq r1 r2) (s1 ++ s2)
  | altL {r1 s} (r2 : Regex) : RMatch r1 s → RMatch (.alt r1 r2) s
  | altR {r2 s} (r1 : Regex) : RMatch r2 s → RMatch (.alt r1 r2) s
  | starEmpty (r : Regex) : RMatch (.star r) []
  | starCons {r s1 s2} : RMatch r s1 → RMatch (.star r) s2 →
      RMatch (.star r) (s1 ++ s2)

/-- Candidate match lengths for a starred regex, greedy first.  `f s` lists
the candidate lengths of one iteration of the body on `s`; an iteration of
width zero never recurses (CPython's engine refuses empty repetitions of a
loop, which is what guarantees termination).  `fuel` bounds the number of
(necessarily width-positive) iterations; `s.length` is always enough. -/
def starEnds (f : List Char → List Nat) : Nat → List Char → List Nat
  | 0, _ => [0]
  | fuel + 1, s =>
      (((f s).filter (fun n => 0 < n)).flatMap
        (fun n => (starEnds f fuel (s.drop n)).map (fun m => n + m))) ++ [0]

/-- All lengths `n` such that `r` matches `s.take n`, listed in the
backtracking engine's preference order (first element = the match the
engine reports: greedy star, left alternative first). -/
def ends : Regex → List Char → List Nat
  | .emptyStr, _ => [0]
  | .char c, s =>
      match s with
      | [] => []
      | c' :: _ => if c' = c then [1] else []
  | .anyChar, s =>
      match s with
      | [] => []
      | _ :: _ => [1]
  | .seq r1 r2, s =>
      (ends r1 s).flatMap (fun n1 => (ends r2 (s.drop n1)).map (fun n2 => n1 + n2))
  | .alt r1 r2, s => ends r1 s ++ ends r2 s
  | .star r, s => starEnds (ends r) s.length s

/-- The end position of the match the engine reports when matching `r`
at position `i` of `s`, if any (`m.end()` for `m = cre.match(s, i)`). -/
def matchEnd (r : Regex) (s : List Char) (i : Nat) : Option Nat :=
  ((ends r (s.drop i)).map (fun n => i + n)).head?

/-- Positions of matched prefixes are bounded by the string length. -/
theorem starEnds_le (f : List Char → List Nat)
    (hf : ∀ s n, n ∈ f s → n ≤ s.length) :
    ∀ fuel s n, n ∈ starEnds f fuel s → n ≤ s.length := by
  intro fuel
  induction fuel with
  | zero =>
      intro s n hn
      simp only [starEnds, List.mem_singleton] at hn
      simp [hn]
  | succ fuel ih =>
      intro s n hn
      simp only [starEnds, List.mem_append, List.mem_flatMap, List.mem_map,
        List.mem_filter, List.mem_singleton] at hn
      rcases hn with ⟨n1, ⟨hn1, _⟩, m, hm, rfl⟩ | rfl
      · have h1 : n1 ≤ s.length := hf s n1 hn1
        have h2 : m ≤ (s.drop n1).length := ih (s.drop n1) m hm
        simp only [List.length_drop] at h2
        omega
      · exact Nat.zero_le _

/-- Every candidate end is at most the length of the string searched. -/
theorem ends_le (r : Regex) : ∀ s n, n ∈ ends r s → n ≤ s.length := by
  induction r with
  | emptyStr =>
      intro s n hn
      simp only [ends, List.mem_singleton] at hn
      simp [hn]
  | char c =>
      intro s n hn
      match s with
      | [] => simp [ends] at hn
      | c' :: rest =>
          simp only [ends] at hn
          by_cases h : c' = c
          · simp only [if_pos h, List.mem_singleton] at hn
            simp [hn]
          · simp [if_neg h] at hn
  | anyChar =>
      intro s n hn
      match s with
      | [] => simp [ends] at hn
      | c' :: rest =>
          simp only [ends, List.mem_singleton] at hn
          simp [hn]
  | seq r1 r2 ih1 ih2 =>
      intro s n hn
      simp only [ends, List.mem_flatMap, List.mem_map] at hn
      obtain ⟨n1, hn1, n2, hn2, rfl⟩ := hn
      have h1 := ih1 s n1 hn1
      have h2 := ih2 (s.drop n1) n2 hn2
      simp only [List.length_drop] at h2
      omega
  | alt r1 r2 ih1 ih2 =>
      intro s n hn
      simp only [ends, List.mem_append] at hn
      rcases hn with h | h
      · exact ih1 s n h
      · exact ih2 s n h
  | star r ih =>
      intro s n hn
      exact starEnds_le (ends r) ih s.length s n hn

/-- Soundness of `starEnds` with respect to the matching relation. -/
theorem starEnds_sound (r : Regex) (f : List Char → List Nat)
    (hf : ∀ s n, n ∈ f s → RMatch r (s.take n)) :
    ∀ fuel s n, n ∈ starEnds f fuel s → RMatch (.star r) (s.take n) := by
  intro fuel
  induction fuel with
  | zero =>
      intro s n hn
      simp only [starEnds, List.mem_singleton] at hn
      subst hn
      simpa using RMatch.starEmpty r
  | succ fuel ih =>
      intro s n hn
      simp only [starEnds, List.mem_append, List.mem_flatMap, List.mem_map,
        List.mem_filter, List.mem_singleton] at hn
      rcases hn with ⟨n1, ⟨hn1, _⟩, m, hm, rfl⟩ | rfl
      · have h1 : RMatch r (s.take n1) := hf s n1 hn1
        have h2 : RMatch (.star r) ((s.drop n1).take m) := ih (s.drop n1) m hm
        have : s.take (n1 + m) = s.take n1 ++ (s.drop n1).take m := by
          rw [List.take_add, List.take_drop]
        rw [this]
        exact RMatch.starCons h1 h2
      · simpa using RMatch.starEmpty r

/-- Soundness: every candidate end yields an actual match of the
corresponding prefix. -/
theorem ends_sound (r : Regex) : ∀ s n, n ∈ ends r s → RMatch r (s.take n) := by
  induction r with
  | emptyStr =>
      intro s n hn
      simp only [ends, List.mem_singleton] at hn
      subst hn
      simpa using RMatch.emptyStr
  | char c =>
      intro s n hn
      match s with
      | [] => simp [ends] at hn
      | c' :: rest =>
          simp only [ends] at hn
          by_cases h : c' = c
          · simp only [if_pos h, List.mem_singleton] at hn
            subst hn
            subst h
            simpa using RMatch.char c'
          · simp [if_neg h] at hn
  | anyChar =>
      intro s n hn
      match s with
      | [] => simp [ends] at hn
      | c' :: rest =>
          simp only [ends, List.mem_singleton] at hn
          subst hn
          simpa using RMatch.anyChar c'
  | seq r1 r2 ih1 ih2 =>
      intro s n hn
      simp only [ends, List.mem_flatMap, List.mem_map] at hn
      obtain ⟨n1, hn1, n2, hn2, rfl⟩ := hn
      have h1 := ih1 s n1 hn1
      have h2 := ih2 (s.drop n1) n2 hn2
      have : s.take (n1 + n2) = s.take n1 ++ (s.drop n1).take n2 := by
        rw [List.take_add, List.take_drop]
      rw [this]
      exact RMatch.seq h1 h2
  | alt r1 r2 ih1 ih2 =>
      intro s n hn
      simp only [ends, List.mem_append] at hn
      rcases hn with h | h
      · exact RMatch.altL r2 (ih1 s n h)
      · exact RMatch.altR r1 (ih2 s n h)
  | star r ih =>
      intro s n hn
      exact starEnds_sound r (ends r) ih s.length s n hn

/-- Basic facts about the reported match end: it lies between the start
position and the string length, and the matched substring satisfies the
matching relation. -/
theorem matchEnd_spec (r : Regex) (s : List Char) (i e : Nat)
    (hi : i ≤ s.length) (h : matchEnd r s i = some e) :
    i ≤ e ∧ e ≤ s.length ∧ RMatch r ((s.drop i).take (e - i)) := by
  unfold matchEnd at h
  rcases hh : (ends r (s.drop i)).head? with _ | n
  · simp [List.head?_map, hh] at h
  · have hmem : n ∈ ends r (s.drop i) := List.mem_of_mem_head? hh
    have hle : n ≤ (s.drop i).length := ends_le r _ n hmem
    have hmatch : RMatch r ((s.drop i).take n) := ends_sound r _ n hmem
    simp only [List.head?_map, hh] at h
    simp only [Option.map] at h
    have he : i + n = e := by
      exact Option.some.inj h
    simp only [List.length_drop] at hle
    refine ⟨by omega, by omega, ?_⟩
    have hni : e - i = n := by omega
    rw [hni]
    exact hmatch

/-- Scanning as in `re`: the first position `p` in `[pos, pos + fuel)`, capped at
`s.length`, where the pattern matches, together with the reported match
end (CPython's `SRE_SEARCH`, one attempt per position, left to right). -/
def searchAux (r : Regex) (s : List Char) : Nat → Nat → Option (Nat × Nat)
  | 0, _ => none
  | fuel + 1, pos =>
      if pos ≤ s.length then
        match matchEnd r s pos with
        | some e => some (pos, e)
        | none => searchAux r s fuel (pos + 1)
      else none

/-- Search for the first match at or after `pos`. -/
def searchFrom (r : Regex) (s : List Char) (pos : Nat) : Option (Nat × Nat) :=
  searchAux r s (s.length + 1 - pos) pos

theorem searchAux_spec (r : Regex) (s : List Char) :
    ∀ fuel pos p e, searchAux r s fuel pos = some (p, e) →
      pos ≤ p ∧ p ≤ s.length ∧ matchEnd r s p = some e := by
  intro fuel
  induction fuel with
  | zero => intro pos p e h; simp [searchAux] at h
  | succ fuel ih =>
      intro pos p e h
      simp only [searchAux] at h
      split at h
      · rename_i hpos
        split at h
        · rename_i e' hm
          simp only [Option.some.injEq, Prod.mk.injEq] at h
          obtain ⟨rfl, rfl⟩ := h
          exact ⟨Nat.le_refl _, hpos, hm⟩
        ·
          rename_i hm
          have hrec := ih (pos + 1) p e h
          exact ⟨by omega, hrec.2.1, hrec.2.2⟩
      · exact absurd h (by simp)

theorem searchFrom_spec (r : Regex) (s : List Char) (pos p e : Nat)
    (h : searchFrom r s pos = some (p, e)) :
    pos ≤ p ∧ p ≤ s.length ∧ matchEnd r s p = some e :=
  searchAux_spec r s _ pos p e h

/-- The `re.finditer` scanning loop (CPython >= 3.7): search from `pos`;
on a match `(p, e)` emit it and resume from `e`, or from `p + 1` when the
match was zero-width.  `fuel` bounds the iteration count; since the resume
position strictly increases and a search only succeeds at a position
`<= s.length`, a fuel of `s.length + 1` is never exhausted. -/
def finditerAux (r : Regex) (s : List Char) : Nat → Nat → List (Nat × Nat)
  | 0, _ => []
  | fuel + 1, pos =>
      match searchFrom r s pos with
      | none => []
      | some (p, e) => (p, e) :: finditerAux r s fuel (if e = p then p + 1 else e)

/-- All non-overlapping matches of `r` in `s`, left to right
(`list(cre.finditer(s))` as `(start, end)` pairs). -/
def finditer (r : Regex) (s : List Char) : List (Nat × Nat) :=
  finditerAux r s (s.length + 1) 0

/-- Every interval produced by the scanning loop starts at or after the
current position, is well-formed (`start <= end <= length`) and is the
match the engine reports at its start position. -/
theorem finditerAux_mem (r : Regex) (s : List Char) :
    ∀ fuel pos iv, iv ∈ finditerAux r s fuel pos →
      pos ≤ iv.1 ∧ iv.1 ≤ iv.2 ∧ iv.2 ≤ s.length ∧
        matchEnd r s iv.1 = some iv.2 := by
  intro fuel
  induction fuel with
  | zero => intro pos iv h; simp [finditerAux] at h
  | succ fuel ih =>
      intro pos iv h
      simp only [finditerAux] at h
      split at h
      · simp at h
      · rename_i p e hsearch
        have hs := searchFrom_spec r s pos p e hsearch
        have hm := matchEnd_spec r s p e hs.2.1 hs.2.2
        rcases List.mem_cons.mp h with rfl | htail
        · exact ⟨hs.1, hm.1, hm.2.1, hs.2.2⟩
        · have hrec := ih _ iv htail
          refine ⟨?_, hrec.2.1, hrec.2.2.1, hrec.2.2.2⟩
          by_cases hep : e = p
          · rw [if_pos hep] at hrec
            omega
          · rw [if_neg hep] at hrec
            omega

/-- The scanning loop emits intervals with strictly increasing starts and
no two of them overlapping: each interval ends at or before the next
interval starts. -/
theorem finditerAux_chain (r : Regex) (s : List Char) :
    ∀ fuel pos,
      List.Chain' (fun a b : Nat × Nat => a.1 < b.1 ∧ a.2 ≤ b.1)
        (finditerAux r s fuel pos) := by
  intro fuel
  induction fuel with
  | zero => intro pos; simp [finditerAux]
  | succ fuel ih =>
      intro pos
      simp only [finditerAux]
      split
      · exact List.chain'_nil
      · rename_i p e hsearch
        have hs := searchFrom_spec r s pos p e hsearch
        have hm := matchEnd_spec r s p e hs.2.1 hs.2.2
        refine List.chain'_cons'.mpr ⟨?_, ih _⟩
        intro y hy
        have hmem : y ∈ finditerAux r s fuel (if e = p then p + 1 else e) :=
          List.mem_of_mem_head? hy
        have hrec := finditerAux_mem r s fuel _ y hmem
        by_cases hep : e = p
        · rw [if_pos hep] at hrec
          constructor <;> omega
        · rw [if_neg hep] at hrec
          constructor <;> omega

/-- The number of matches found by a greedy single-pass scan: same loop as
`finditerAux`, counting instead of collecting. -/
def greedyScanCountAux (r : Regex) (s : List Char) : Nat → Nat → Nat
  | 0, _ => 0
  | fuel + 1, pos =>
      match searchFrom r s pos with
      | none => 0
      | some (p, e) => 1 + greedyScanCountAux r s fuel (if e = p then p + 1 else e)

/-- Number of non-overlapping occurrences of `r` in `s`, as produced by a
greedy left-to-right single-pass scan. -/
def greedyScanCount (r : Regex) (s : List Char) : Nat :=
  greedyScanCountAux r s (s.length + 1) 0

theorem finditerAux_length (r : Regex) (s : List Char) :
    ∀ fuel pos, (finditerAux r s fuel pos).length = greedyScanCountAux r s fuel pos := by
  intro fuel
  induction fuel with
  | zero => intro pos; simp [finditerAux, greedyScanCountAux]
  | succ fuel ih =>
      intro pos
      simp only [finditerAux, greedyScanCountAux]
      split
      · simp
      · simp [ih]
        omega

/-- A compiled-or-rejected pattern.  Python's `re.compile` either yields a
compiled pattern object (modelled by the `Regex` it denotes) or raises
`re.error` (a subclass of `ValueError`) on a syntactically invalid pattern
string.  The empty pattern string `""` compiles successfully to a regex
matching the empty string, i.e. `Pattern.valid Regex.emptyStr`. -/
inductive Pattern where
  | valid (r : Regex) : Pattern
  | invalid : Pattern
deriving DecidableEq, Repr

/-- The exception raised by `re.compile` on an invalid pattern. -/
inductive PyError where
  | reError : PyError
deriving DecidableEq, Repr

/-- Model of `re.compile(pattern)`. -/
def re_compile : Pattern → Except PyError Regex
  | .valid r => .ok r
  | .invalid => .error .reError

/-- The compiled form of the empty pattern string `""`. -/
def emptyPattern : Pattern := .valid .emptyStr

/-- The function `find_pattern_in_string(input_string, pattern)` of `greppetto.py`:
compile the pattern (raising on an invalid one), then collect
`(match.start(), match.end())` for every match of `cre.finditer`. -/
def find_pattern_in_string (input_string : List Char) (pattern : Pattern) :
    Except PyError (List (Nat × Nat)) :=
  match re_compile pattern with
  | .error e => .error e
  | .ok cre => .ok (finditer cre input_string)

/-- Whether `r` matches the empty string (executable). -/
def nullable (r : Regex) : Bool := !(ends r []).isEmpty

theorem ends_nil_eq_zero (r : Regex) : ∀ n ∈ ends r [], n = 0 := by
  intro n hn
  have := ends_le r [] n hn
  simpa using this

/-- Behaviour of the matcher on the empty line: no interval when the
pattern cannot match the empty string, one zero-width interval when it
can (as `re.finditer` reports a single empty match at position 0). -/
theorem find_pattern_in_string_nil (r : Regex) :
    find_pattern_in_string [] (.valid r) =
      .ok (if nullable r then [(0, 0)] else []) := by
  unfold find_pattern_in_string re_compile
  simp only [Except.ok.injEq]
  unfold finditer
  rcases hl : ends r [] with _ | ⟨n, t⟩
  · have hnul : nullable r = false := by simp [nullable, hl]
    rw [hnul]
    simp only [List.length_nil, Nat.zero_add, finditerAux, searchFrom, searchAux,
      matchEnd, List.drop_nil, hl]
    simp [finditerAux]
  · have hn : n = 0 := ends_nil_eq_zero r n (by simp [hl])
    subst hn
    have hnul : nullable r = true := by simp [nullable, hl]
    rw [hnul]
    simp only [List.length_nil, Nat.zero_add, finditerAux, searchFrom, searchAux,
      matchEnd, List.drop_nil, hl]
    simp [finditerAux, searchFrom, searchAux]

/-- C2 (amended): on the empty input string, `find_pattern_in_string`
returns the empty interval list for every valid pattern that does not
match the empty string; a pattern that does match the empty string yields
the single zero-width interval `(0, 0)`, and an invalid pattern raises. -/
theorem find_pattern_in_string_empty_line (r : Regex) (h : nullable r = false) :
    find_pattern_in_string [] (.valid r) = .ok [] := by
  rw [find_pattern_in_string_nil, h]
  simp

/-- Witness for `find_pattern_in_string_empty_line` at the concrete
pattern `a`. -/
theorem find_pattern_in_string_empty_line_witness :
    find_pattern_in_string [] (.valid (.char 'a')) = .ok [] :=
  find_pattern_in_string_empty_line (.char 'a') (by decide)

/-- C2 counterexample: the empty pattern `""` compiles to a regex matching
the empty string, and on the empty line `find_pattern_in_string` then
returns the zero-width interval `(0, 0)`, not the empty sequence. -/
theorem find_pattern_in_string_empty_line_empty_pattern :
    find_pattern_in_string [] emptyPattern = .ok [(0, 0)] ∧
      (Except.ok [(0, 0)] : Except PyError (List (Nat × Nat))) ≠ .ok [] := by
  constructor
  · rfl
  · intro hh
    simpa using Except.ok.inj hh

/-- C1 (amended: `start <= end` in place of `start < end`): every interval
returned by `find_pattern_in_string` satisfies
`0 <= start <= end <= length(line)`; the intervals have strictly
increasing starts and are pairwise non-overlapping (each ends at or
before the next starts); their number is exactly the number of
non-overlapping occurrences found by a greedy left-to-right scan; and
each interval's substring is a match of the pattern. -/
theorem find_pattern_in_string_intervals (r : Regex) (line : List Char)
    (res : List (Nat × Nat))
    (h : find_pattern_in_string line (.valid r) = .ok res) :
    (∀ iv ∈ res, iv.1 ≤ iv.2 ∧ iv.2 ≤ line.length) ∧
      List.Chain' (fun a b : Nat × Nat => a.1 < b.1 ∧ a.2 ≤ b.1) res ∧
      res.length = greedyScanCount r line ∧
      (∀ iv ∈ res, RMatch r ((line.drop iv.1).take (iv.2 - iv.1))) := by
  have hres : res = finditer r line := by
    unfold find_pattern_in_string re_compile at h
    simpa using h.symm
  subst hres
  refine ⟨?_, ?_, ?_, ?_⟩
  · intro iv hiv
    have := finditerAux_mem r line _ _ iv hiv
    exact ⟨this.2.1, this.2.2.1⟩
  · exact finditerAux_chain r line _ _
  · exact finditerAux_length r line _ _
  · intro iv hiv
    have hm := finditerAux_mem r line _ _ iv hiv
    have := matchEnd_spec r line iv.1 iv.2 (by omega) hm.2.2.2
    exact this.2.2

/-- Witness for `find_pattern_in_string_intervals` at pattern `a` on the
line `ba`. -/
theorem find_pattern_in_string_intervals_witness :
    (∀ iv ∈ [((1 : Nat), (2 : Nat))], iv.1 ≤ iv.2 ∧ iv.2 ≤ ['b', 'a'].length) ∧
      List.Chain' (fun a b : Nat × Nat => a.1 < b.1 ∧ a.2 ≤ b.1) [((1 : Nat), (2 : Nat))] ∧
      [((1 : Nat), (2 : Nat))].length = greedyScanCount (.char 'a') ['b', 'a'] ∧
      (∀ iv ∈ [((1 : Nat), (2 : Nat))],
        RMatch (.char 'a') ((['b', 'a'].drop iv.1).take (iv.2 - iv.1))) :=
  find_pattern_in_string_intervals (.char 'a') ['b', 'a'] [(1, 2)] (by rfl)

/-- C1 counterexample: on line `a` the empty pattern produces the
zero-width interval `(0, 0)`, so `start < end` fails for a returned
interval. -/
theorem find_pattern_in_string_zero_width_interval :
    find_pattern_in_string ['a'] emptyPattern = .ok [(0, 0), (1, 1)] ∧
      ¬ ((0 : Nat) < 0) := by
  constructor
  · rfl
  · decide

/-- The characters removed by Python's `str.strip()` on ASCII text. -/
def isPySpace (c : Char) : Bool :=
  c = ' ' || c = '\t' || c = '\n' || c = '\r' || c = '\x0b' || c = '\x0c'

/-- Python's `str.strip()`: remove leading and trailing whitespace. -/
def pyStrip (s : List Char) : List Char :=
  ((s.dropWhile isPySpace).reverse.dropWhile isPySpace).reverse

/-- Python's `str(n)` for a non-negative integer. -/
def natChars (n : Nat) : List Char := (Nat.repr n).toList

/-- Python's slice `l[a:b]` (for 0 <= a, b; empty when `a >= b`). -/
def pySlice (l : List Char) (a b : Nat) : List Char := (l.drop a).take (b - a)

/-- The per-line output tag: the local `prefix = filename + ":" +
str(line_number) + ":"` built by the formatters. -/
def tagOf (filename : List Char) (line_number : Nat) : List Char :=
  filename ++ [':'] ++ natChars line_number ++ [':']

/-- The method `DefaultMatchedLineFormatter.format`: build
`filename + ":" + str(line_number) + ":" + line` and return its
`strip()`. -/
def DefaultMatchedLineFormatter.format (filename : List Char) (line_number : Nat)
    (line : List Char) (pattern_match_intervals : List (Nat × Nat)) : List Char :=
  pyStrip (filename ++ [':'] ++ natChars line_number ++ [':'] ++ line)

/-- The constant `'\033[95m'`. -/
def CHAR_FORMAT_START_PURPLE : List Char := ['\x1b', '[', '9', '5', 'm']

/-- The constant `'\033[0m'`. -/
def CHAR_FORMAT_END : List Char := ['\x1b', '[', '0', 'm']

/-- The accumulation loop of `ColorMatchedLineFormatter.format`: emit the
unmatched gap before each interval, then the matched span wrapped in the
highlight control sequences, finally the tail after the last match. -/
def colorLoop (line : List Char) : Nat → List (Nat × Nat) → List Char
  | last_match_end, [] => line.drop last_match_end
  | last_match_end, iv :: rest =>
      pySlice line last_match_end iv.1 ++ CHAR_FORMAT_START_PURPLE ++
        pySlice line iv.1 iv.2 ++ CHAR_FORMAT_END ++ colorLoop line iv.2 rest

/-- The method `ColorMatchedLineFormatter.format`. -/
def ColorMatchedLineFormatter.format (filename : List Char) (line_number : Nat)
    (line : List Char) (pattern_match_intervals : List (Nat × Nat)) : List Char :=
  tagOf filename line_number ++ colorLoop line 0 pattern_match_intervals

/-- Python list assignment `l[i] = c`: raises `IndexError` (modelled by
`none`) when `i` is out of range. -/
def setChecked (l : List Char) (i : Nat) (c : Char) : Option (List Char) :=
  if i < l.length then some (l.set i c) else none

/-- Perform `d` successive assignments `buf[a] = '^'`, `buf[a+1] = '^'`, ... -/
def writeRangeAux : Nat → Nat → List Char → Option (List Char)
  | 0, _, buf => some buf
  | d + 1, a, buf =>
      match setChecked buf a '^' with
      | none => none
      | some buf' => writeRangeAux d (a + 1) buf'

/-- The inner loop `for i in range(a, b): underscored_line[i] = "^"`:
`b - a` assignments starting at index `a`. -/
def writeRange (a b : Nat) (buf : List Char) : Option (List Char) :=
  writeRangeAux (b - a) a buf

/-- The outer loop of `UnderscoreMatchedLineFormatter.format` over the
match intervals, shifting each by the tag length. -/
def writeIntervals (tagLen : Nat) : List (Nat × Nat) → List Char → Option (List Char)
  | [], buf => some buf
  | iv :: rest, buf =>
      match writeRange (iv.1 + tagLen) (iv.2 + tagLen) buf with
      | none => none
      | some buf' => writeIntervals tagLen rest buf'

/-- The method `UnderscoreMatchedLineFormatter.format`: the default-style line, a
newline, then a caret line built by writing `^` over a space buffer of
the same length; `none` models the `IndexError` raised when an interval
reaches past the end of the buffer. -/
def UnderscoreMatchedLineFormatter.format (filename : List Char) (line_number : Nat)
    (line : List Char) (pattern_match_intervals : List (Nat × Nat)) :
    Option (List Char) :=
  match writeIntervals (tagOf filename line_number).length pattern_match_intervals
      (List.replicate (tagOf filename line_number ++ line).length ' ') with
  | none => none
  | some underscored_line =>
      some (tagOf filename line_number ++ line ++ '\n' :: underscored_line)

/-- The accumulation loop of `MachineReadableMatchedLineFormatter.format`:
one `tag + str(start) + ":" + line[start:end] + "\n"` chunk per interval. -/
def machineLoop (tag line : List Char) : List (Nat × Nat) → List Char
  | [] => []
  | iv :: rest =>
      tag ++ natChars iv.1 ++ [':'] ++ pySlice line iv.1 iv.2 ++ ['\n'] ++
        machineLoop tag line rest

/-- The method `MachineReadableMatchedLineFormatter.format`: accumulate one line per
interval and return the `strip()` of the result. -/
def MachineReadableMatchedLineFormatter.format (filename : List Char)
    (line_number : Nat) (line : List Char)
    (pattern_match_intervals : List (Nat × Nat)) : List Char :=
  pyStrip (machineLoop (tagOf filename line_number) line pattern_match_intervals)

/-- Appending a trailing whitespace character does not change `strip()`. -/
theorem pyStrip_append_ws (xs : List Char) (c : Char) (hc : isPySpace c = true) :
    pyStrip (xs ++ [c]) = pyStrip xs := by
  unfold pyStrip
  rw [List.dropWhile_append]
  split
  · rename_i he
    have hx : List.dropWhile isPySpace xs = [] := List.isEmpty_iff.mp he
    rw [hx]
    simp [List.dropWhile_cons, hc]
  · rw [List.reverse_append]
    simp only [List.reverse_cons, List.reverse_nil, List.nil_append,
      List.singleton_append]
    rw [List.dropWhile_cons, if_pos hc]

/-- Python `strip()` is the identity on a string whose first and last characters
are not whitespace. -/
theorem pyStrip_eq_self (s : List Char)
    (h1 : ∀ c, s.head? = some c → isPySpace c = false)
    (h2 : ∀ c, s.getLast? = some c → isPySpace c = false) :
    pyStrip s = s := by
  match s with
  | [] => rfl
  | a :: t =>
      unfold pyStrip
      have ha : isPySpace a = false := h1 a rfl
      rw [List.dropWhile_cons, if_neg (by simp [ha])]
      rcases hr : (a :: t).reverse with _ | ⟨b, t'⟩
      · exact absurd (congrArg List.length hr) (by simp)
      · have hb : (a :: t).getLast? = some b := by
          rw [← List.head?_reverse, hr]
          rfl
        have hbws : isPySpace b = false := h2 b hb
        rw [List.dropWhile_cons, if_neg (by simp [hbws]), ← hr,
          List.reverse_reverse]

/-- The newline-join described by the specification: the given lines
joined by single `\n` separators. -/
def newlineJoin : List (List Char) → List Char
  | [] => []
  | [x] => x
  | x :: y :: rest => x ++ '\n' :: newlineJoin (y :: rest)

/-- The machine formatter's accumulation equals the newline-join of its
per-interval lines followed by one trailing newline. -/
theorem machineLoop_eq_join (tag line : List Char) :
    ∀ ivs : List (Nat × Nat), ivs ≠ [] →
      machineLoop tag line ivs =
        newlineJoin (ivs.map (fun iv =>
          tag ++ natChars iv.1 ++ [':'] ++ pySlice line iv.1 iv.2)) ++ ['\n'] := by
  intro ivs
  induction ivs with
  | nil => intro h; exact absurd rfl h
  | cons iv rest ih =>
      intro _
      match rest with
      | [] => simp [machineLoop, newlineJoin]
      | iv2 :: rest' =>
          have hne : (iv2 :: rest' : List (Nat × Nat)) ≠ [] := by simp
          calc machineLoop tag line (iv :: iv2 :: rest')
              = tag ++ natChars iv.1 ++ [':'] ++ pySlice line iv.1 iv.2 ++ ['\n'] ++
                  machineLoop tag line (iv2 :: rest') := rfl
            _ = tag ++ natChars iv.1 ++ [':'] ++ pySlice line iv.1 iv.2 ++ ['\n'] ++
                  (newlineJoin ((iv2 :: rest').map (fun iv =>
                    tag ++ natChars iv.1 ++ [':'] ++ pySlice line iv.1 iv.2)) ++
                    ['\n']) := by rw [ih hne]
            _ = newlineJoin ((iv :: iv2 :: rest').map (fun iv =>
                  tag ++ natChars iv.1 ++ [':'] ++ pySlice line iv.1 iv.2)) ++
                  ['\n'] := by
                simp [newlineJoin, List.append_assoc]

/-- C5 (amended: the code strips surrounding whitespace from the joined
result): on a non-empty interval list the Machine formatter returns the
Python-`strip()` of the newline-join of the per-interval lines
`source:lineNumber:start:line[start:end]`, in interval order. -/
theorem Machine_format_spec (filename : List Char) (line_number : Nat)
    (line : List Char) (pattern_match_intervals : List (Nat × Nat))
    (h : pattern_match_intervals ≠ []) :
    MachineReadableMatchedLineFormatter.format filename line_number line
        pattern_match_intervals =
      pyStrip (newlineJoin (pattern_match_intervals.map (fun iv =>
        tagOf filename line_number ++ natChars iv.1 ++ [':'] ++
          pySlice line iv.1 iv.2))) := by
  unfold MachineReadableMatchedLineFormatter.format
  rw [machineLoop_eq_join _ _ _ h]
  exact pyStrip_append_ws _ '\n' (by decide)

/-- Witness for `Machine_format_spec` at a concrete record. -/
theorem Machine_format_spec_witness :
    MachineReadableMatchedLineFormatter.format ['f'] 1 ['a', 'b'] [(0, 1)] =
      pyStrip (newlineJoin ([((0 : Nat), (1 : Nat))].map (fun iv =>
        tagOf ['f'] 1 ++ natChars iv.1 ++ [':'] ++
          pySlice ['a', 'b'] iv.1 iv.2))) :=
  Machine_format_spec ['f'] 1 ['a', 'b'] [(0, 1)] (by simp)

/-- C5 counterexample: when the last matched substring ends in
whitespace, `strip()` removes it, so the result is not exactly the
newline-join (here the match is `"a "` and the trailing space is lost). -/
theorem Machine_format_not_exact_join :
    MachineReadableMatchedLineFormatter.format ['f'] 1 ['a', ' '] [(0, 2)] =
        ['f', ':', '1', ':', '0', ':', 'a'] ∧
      newlineJoin [tagOf ['f'] 1 ++ natChars 0 ++ [':'] ++ pySlice ['a', ' '] 0 2] =
        ['f', ':', '1', ':', '0', ':', 'a', ' '] ∧
      MachineReadableMatchedLineFormatter.format ['f'] 1 ['a', ' '] [(0, 2)] ≠
        newlineJoin [tagOf ['f'] 1 ++ natChars 0 ++ [':'] ++ pySlice ['a', ' '] 0 2] := by
  refine ⟨by rfl, by rfl, ?_⟩
  intro hcontra
  have := hcontra
  rw [show MachineReadableMatchedLineFormatter.format ['f'] 1 ['a', ' '] [(0, 2)] =
      ['f', ':', '1', ':', '0', ':', 'a'] from rfl] at this
  rw [show newlineJoin [tagOf ['f'] 1 ++ natChars 0 ++ [':'] ++ pySlice ['a', ' '] 0 2] =
      ['f', ':', '1', ':', '0', ':', 'a', ' '] from rfl] at this
  simp at this

/-- C6 (amended: the code applies `strip()` to the concatenation): the
Default formatter returns the single line `source:lineNumber:line`
verbatim whenever the source id does not start with whitespace and the
line does not end with whitespace; in all cases the result is independent
of the match intervals. -/
theorem Default_format_spec (filename : List Char) (line_number : Nat)
    (line : List Char) (pattern_match_intervals morIntervals : List (Nat × Nat))
    (h1 : ∀ c, filename.head? = some c → isPySpace c = false)
    (h2 : ∀ c, line.getLast? = some c → isPySpace c = false) :
    DefaultMatchedLineFormatter.format filename line_number line
        pattern_match_intervals =
      filename ++ [':'] ++ natChars line_number ++ [':'] ++ line ∧
    DefaultMatchedLineFormatter.format filename line_number line
        pattern_match_intervals =
      DefaultMatchedLineFormatter.format filename line_number line morIntervals := by
  refine ⟨?_, rfl⟩
  unfold DefaultMatchedLineFormatter.format
  apply pyStrip_eq_self
  · intro c hc
    cases filename with
    | nil =>
        simp only [List.nil_append, List.cons_append, List.head?_cons,
          Option.some.injEq] at hc
        subst hc
        decide
    | cons a t =>
        simp only [List.cons_append, List.head?_cons, Option.some.injEq] at hc
        rw [← hc]
        exact h1 a rfl
  · intro c hc
    cases line with
    | nil =>
        rw [List.append_nil, List.getLast?_concat] at hc
        have : c = ':' := by
          exact (Option.some.inj hc).symm
        subst this
        decide
    | cons a t =>
        rw [List.getLast?_append] at hc
        rcases hl : (a :: t).getLast? with _ | x
        · exact absurd hl (by simp [List.getLast?_eq_none_iff])
        · rw [hl] at hc
          simp only [Option.or_some, Option.some.injEq] at hc
          subst hc
          exact h2 x hl

/-- Witness for `Default_format_spec` at a concrete record. -/
theorem Default_format_spec_witness :
    DefaultMatchedLineFormatter.format ['f'] 1 ['a'] [(0, 1)] =
      ['f'] ++ [':'] ++ natChars 1 ++ [':'] ++ ['a'] ∧
    DefaultMatchedLineFormatter.format ['f'] 1 ['a'] [(0, 1)] =
      DefaultMatchedLineFormatter.format ['f'] 1 ['a'] [] :=
  Default_format_spec ['f'] 1 ['a'] [(0, 1)] []
    (by intro c hc; cases hc; decide)
    (by intro c hc; cases hc; decide)

/-- C6 counterexample: a line with trailing whitespace is not reproduced
unchanged — `strip()` removes the trailing space. -/
theorem Default_format_strips_line :
    DefaultMatchedLineFormatter.format ['f'] 1 ['a', ' '] [(0, 1)] =
        ['f', ':', '1', ':', 'a'] ∧
      DefaultMatchedLineFormatter.format ['f'] 1 ['a', ' '] [(0, 1)] ≠
        ['f'] ++ [':'] ++ natChars 1 ++ [':'] ++ ['a', ' '] := by
  refine ⟨by rfl, ?_⟩
  intro hcontra
  rw [show DefaultMatchedLineFormatter.format ['f'] 1 ['a', ' '] [(0, 1)] =
      ['f', ':', '1', ':', 'a'] from rfl] at hcontra
  rw [show (['f'] ++ [':'] ++ natChars 1 ++ [':'] ++ ['a', ' '] : List Char) =
      ['f', ':', '1', ':', 'a', ' '] from rfl] at hcontra
  simp at hcontra

theorem writeRangeAux_length : ∀ d a buf buf',
    writeRangeAux d a buf = some buf' → buf'.length = buf.length := by
  intro d
  induction d with
  | zero =>
      intro a buf buf' h
      cases h
      rfl
  | succ d ih =>
      intro a buf buf' h
      unfold writeRangeAux setChecked at h
      by_cases hi : a < buf.length
      · rw [if_pos hi] at h
        have := ih (a + 1) (buf.set a '^') buf' h
        simpa [List.length_set] using this
      · rw [if_neg hi] at h
        simp at h

theorem writeRangeAux_isSome : ∀ d a buf, a + d ≤ buf.length →
    ∃ buf', writeRangeAux d a buf = some buf' := by
  intro d
  induction d with
  | zero => intro a buf _; exact ⟨buf, rfl⟩
  | succ d ih =>
      intro a buf hb
      have hi : a < buf.length := by omega
      obtain ⟨buf', hbuf'⟩ := ih (a + 1) (buf.set a '^')
        (by simp [List.length_set]; omega)
      refine ⟨buf', ?_⟩
      unfold writeRangeAux setChecked
      rw [if_pos hi]
      exact hbuf'

theorem writeRangeAux_getElem? : ∀ d a buf buf',
    writeRangeAux d a buf = some buf' →
    ∀ p : Nat, buf'[p]? = if a ≤ p ∧ p < a + d then some '^' else buf[p]? := by
  intro d
  induction d with
  | zero =>
      intro a buf buf' h p
      cases h
      rw [if_neg (by omega)]
  | succ d ih =>
      intro a buf buf' h p
      unfold writeRangeAux setChecked at h
      by_cases hi : a < buf.length
      · rw [if_pos hi] at h
        have hrec := ih (a + 1) (buf.set a '^') buf' h p
        by_cases hp : a + 1 ≤ p ∧ p < a + 1 + d
        · rw [hrec, if_pos hp, if_pos (by omega)]
        · rw [hrec, if_neg hp]
          by_cases hpa : p = a
          · subst hpa
            rw [List.getElem?_set]
            rw [if_pos rfl, if_pos hi, if_pos (by omega)]
          · rw [List.getElem?_set, if_neg (by omega)]
            rw [if_neg (by omega)]
      · rw [if_neg hi] at h
        simp at h

theorem writeRange_length (a b : Nat) (buf buf' : List Char)
    (h : writeRange a b buf = some buf') : buf'.length = buf.length :=
  writeRangeAux_length (b - a) a buf buf' h

theorem writeRange_isSome (a b : Nat) (buf : List Char) (hb : b ≤ buf.length) :
    ∃ buf', writeRange a b buf = some buf' := by
  by_cases hab : a ≤ b
  · exact writeRangeAux_isSome (b - a) a buf (by omega)
  · unfold writeRange
    rw [show b - a = 0 from by omega]
    exact ⟨buf, rfl⟩

theorem writeRange_getElem? (a b : Nat) (buf buf' : List Char)
    (h : writeRange a b buf = some buf') :
    ∀ p : Nat, buf'[p]? = if a ≤ p ∧ p < b then some '^' else buf[p]? := by
  intro p
  have := writeRangeAux_getElem? (b - a) a buf buf' h p
  rw [this]
  by_cases hp : a ≤ p ∧ p < a + (b - a)
  · rw [if_pos hp, if_pos (by omega)]
  · rw [if_neg hp, if_neg (by omega)]

theorem writeIntervals_length :
    ∀ (ivs : List (Nat × Nat)) (tagLen : Nat) (buf buf' : List Char),
      writeIntervals tagLen ivs buf = some buf' → buf'.length = buf.length := by
  intro ivs
  induction ivs with
  | nil =>
      intro tagLen buf buf' h
      cases h
      rfl
  | cons iv rest ih =>
      intro tagLen buf buf' h
      unfold writeIntervals at h
      rcases hw : writeRange (iv.1 + tagLen) (iv.2 + tagLen) buf with _ | buf1
      · rw [hw] at h; simp at h
      · rw [hw] at h
        have h1 := writeRange_length _ _ _ _ hw
        have h2 := ih tagLen buf1 buf' h
        omega

theorem writeIntervals_isSome (tagLen : Nat) :
    ∀ (ivs : List (Nat × Nat)) (buf : List Char),
      (∀ iv ∈ ivs, iv.2 + tagLen ≤ buf.length) →
      ∃ buf', writeIntervals tagLen ivs buf = some buf' := by
  intro ivs
  induction ivs with
  | nil => intro buf _; exact ⟨buf, rfl⟩
  | cons iv rest ih =>
      intro buf hb
      obtain ⟨buf1, hbuf1⟩ := writeRange_isSome (iv.1 + tagLen) (iv.2 + tagLen)
        buf (hb iv (List.mem_cons_self _ _))
      have hlen : buf1.length = buf.length :=
        writeRange_length _ _ _ _ hbuf1
      obtain ⟨buf', hbuf'⟩ := ih buf1 (by
        intro jv hjv
        rw [hlen]
        exact hb jv (List.mem_cons_of_mem _ hjv))
      refine ⟨buf', ?_⟩
      unfold writeIntervals
      rw [hbuf1]
      exact hbuf'

theorem writeIntervals_getElem? :
    ∀ (ivs : List (Nat × Nat)) (tagLen : Nat) (buf buf' : List Char),
      writeIntervals tagLen ivs buf = some buf' →
      ∀ p : Nat, buf'[p]? =
        if ∃ iv ∈ ivs, iv.1 + tagLen ≤ p ∧ p < iv.2 + tagLen
        then some '^' else buf[p]? := by
  intro ivs
  induction ivs with
  | nil =>
      intro tagLen buf buf' h p
      cases h
      simp
  | cons iv rest ih =>
      intro tagLen buf buf' h p
      unfold writeIntervals at h
      rcases hw : writeRange (iv.1 + tagLen) (iv.2 + tagLen) buf with _ | buf1
      · rw [hw] at h; simp at h
      · rw [hw] at h
        have h1 := writeRange_getElem? _ _ _ _ hw p
        have h2 := ih tagLen buf1 buf' h p
        by_cases hrest : ∃ jv ∈ rest, jv.1 + tagLen ≤ p ∧ p < jv.2 + tagLen
        · rw [h2, if_pos hrest, if_pos ?_]
          obtain ⟨jv, hjv, hcov⟩ := hrest
          exact ⟨jv, List.mem_cons_of_mem _ hjv, hcov⟩
        · rw [h2, if_neg hrest, h1]
          by_cases hiv : iv.1 + tagLen ≤ p ∧ p < iv.2 + tagLen
          · rw [if_pos hiv, if_pos ?_]
            exact ⟨iv, List.mem_cons_self _ _, hiv⟩
          · rw [if_neg hiv, if_neg ?_]
            intro hcontra
            obtain ⟨jv, hjv, hcov⟩ := hcontra
            rcases List.mem_cons.mp hjv with rfl | hjv'
            · exact hiv hcov
            · exact hrest ⟨jv, hjv', hcov⟩

/-- C7: for intervals lying within the line, the Underscore formatter
returns the default-style line and, after one newline, a caret line of
length `length(tag) + length(line)` carrying `^` at exactly the positions
covered by some interval shifted by the tag length, spaces elsewhere. -/
theorem Underscore_format_spec (filename : List Char) (line_number : Nat)
    (line : List Char) (pattern_match_intervals : List (Nat × Nat))
    (h : ∀ iv ∈ pattern_match_intervals, iv.2 ≤ line.length) :
    ∃ caret : List Char,
      UnderscoreMatchedLineFormatter.format filename line_number line
          pattern_match_intervals =
        some (tagOf filename line_number ++ line ++ '\n' :: caret) ∧
      caret.length = (tagOf filename line_number).length + line.length ∧
      ∀ p : Nat, p < caret.length →
        caret[p]? =
          if ∃ iv ∈ pattern_match_intervals,
              iv.1 + (tagOf filename line_number).length ≤ p ∧
              p < iv.2 + (tagOf filename line_number).length
          then some '^' else some ' ' := by
  have hlenbuf :
      (List.replicate (tagOf filename line_number ++ line).length ' ').length =
        (tagOf filename line_number).length + line.length := by
    simp [List.length_replicate]
  obtain ⟨caret, hcaret⟩ :=
    writeIntervals_isSome (tagOf filename line_number).length
      pattern_match_intervals
      (List.replicate (tagOf filename line_number ++ line).length ' ')
      (by
        intro iv hiv
        rw [hlenbuf]
        have := h iv hiv
        omega)
  refine ⟨caret, ?_, ?_, ?_⟩
  · unfold UnderscoreMatchedLineFormatter.format
    rw [hcaret]
  · rw [writeIntervals_length _ _ _ _ hcaret, hlenbuf]
  · intro p hp
    rw [writeIntervals_getElem? _ _ _ _ hcaret p]
    have hplen : p < (tagOf filename line_number ++ line).length := by
      rw [writeIntervals_length _ _ _ _ hcaret, hlenbuf] at hp
      simp only [List.length_append]
      omega
    by_cases hcov : ∃ iv ∈ pattern_match_intervals,
        iv.1 + (tagOf filename line_number).length ≤ p ∧
        p < iv.2 + (tagOf filename line_number).length
    · rw [if_pos hcov, if_pos hcov]
    · rw [if_neg hcov, if_neg hcov, List.getElem?_replicate, if_pos hplen]

/-- Witness for `Underscore_format_spec` at a concrete record. -/
theorem Underscore_format_spec_witness :
    ∃ caret : List Char,
      UnderscoreMatchedLineFormatter.format ['f'] 1 ['a', 'b'] [(0, 1)] =
        some (tagOf ['f'] 1 ++ ['a', 'b'] ++ '\n' :: caret) ∧
      caret.length = (tagOf ['f'] 1).length + (['a', 'b'] : List Char).length ∧
      ∀ p : Nat, p < caret.length →
        caret[p]? =
          if ∃ iv ∈ [((0 : Nat), (1 : Nat))],
              iv.1 + (tagOf ['f'] 1).length ≤ p ∧ p < iv.2 + (tagOf ['f'] 1).length
          then some '^' else some ' ' :=
  Underscore_format_spec ['f'] 1 ['a', 'b'] [(0, 1)] (by
    intro iv hiv
    rcases List.mem_singleton.mp hiv with rfl
    decide)

/-- C10: the caret-writing loop of the Underscore formatter never writes
out of the buffer when every interval satisfies
`start <= end <= length(line)` (so the formatter is total under that
precondition), and an interval reaching past the end of the line makes it
raise `IndexError` (modelled by `none`). -/
theorem Underscore_format_total_and_bounds :
    (∀ (filename : List Char) (line_number : Nat) (line : List Char)
        (pattern_match_intervals : List (Nat × Nat)),
        (∀ iv ∈ pattern_match_intervals, iv.1 ≤ iv.2 ∧ iv.2 ≤ line.length) →
        (UnderscoreMatchedLineFormatter.format filename line_number line
            pattern_match_intervals).isSome = true) ∧
      UnderscoreMatchedLineFormatter.format ['f'] 1 ['a'] [(0, 2)] = none := by
  constructor
  · intro filename line_number line pattern_match_intervals h
    obtain ⟨caret, hcaret⟩ :=
      writeIntervals_isSome (tagOf filename line_number).length
        pattern_match_intervals
        (List.replicate (tagOf filename line_number ++ line).length ' ')
        (by
          intro iv hiv
          have := (h iv hiv).2
          simp only [List.length_replicate, List.length_append]
          omega)
    unfold UnderscoreMatchedLineFormatter.format
    rw [hcaret]
    rfl
  · rfl

/-- Witness for `Underscore_format_total_and_bounds` at a concrete
in-bounds record. -/
theorem Underscore_format_total_witness :
    (UnderscoreMatchedLineFormatter.format ['f'] 1 ['a', 'b'] [(1, 2)]).isSome = true :=
  Underscore_format_total_and_bounds.1 ['f'] 1 ['a', 'b'] [(1, 2)] (by
    intro iv hiv
    rcases List.mem_singleton.mp hiv with rfl
    exact ⟨by decide, by decide⟩)

/-- The four output formats (`MatchedLineFormat` in `greppetto.py`). -/
inductive MatchedLineFormat where
  | DEFAULT : MatchedLineFormat
  | UNDERSCORE : MatchedLineFormat
  | COLOR : MatchedLineFormat
  | MACHINE : MatchedLineFormat
deriving DecidableEq, Repr

/-- The shape of a formatter's `format` method; `none` models an uncaught
exception (the Underscore formatter's possible `IndexError`). -/
def FormatterFn : Type :=
  List Char → Nat → List Char → List (Nat × Nat) → Option (List Char)

/-- A formatter class, as stored in the factory's `_formatters` dict. -/
structure FormatterClass where
  fmt : FormatterFn

/-- An instantiated formatter object. -/
structure FormatterObj where
  fmt : FormatterFn

/-- The Python call `formatter()`: instantiate the class. -/
def instantiate (c : FormatterClass) : FormatterObj := ⟨c.fmt⟩

/-- The class `MatchedLineFormatterFactory`: the `_formatters` dict, most recent
registration first (a later `register_format` on the same key overwrites
the earlier one, like Python dict assignment). -/
def MatchedLineFormatterFactory : Type := List (MatchedLineFormat × FormatterClass)

/-- The method `MatchedLineFormatterFactory.register_format`. -/
def register_format (factory : MatchedLineFormatterFactory)
    (matched_line_format : MatchedLineFormat) (formatter : FormatterClass) :
    MatchedLineFormatterFactory :=
  (matched_line_format, formatter) :: factory

/-- The dict lookup `self._formatters.get(matched_line_format)`. -/
def lookupFormat (factory : MatchedLineFormatterFactory)
    (matched_line_format : MatchedLineFormat) : Option FormatterClass :=
  match factory with
  | [] => none
  | (k, v) :: rest =>
      if k = matched_line_format then some v else lookupFormat rest matched_line_format

/-- The method `MatchedLineFormatterFactory.get_formatter`: raise
`ValueError(matched_line_format)` (the error carries the selector) when
no class is registered, otherwise instantiate the registered class.
Registered values are Python classes, which are always truthy, so the
code's `if not formatter` test is exactly the absent-key case. -/
def get_formatter (factory : MatchedLineFormatterFactory)
    (matched_line_format : MatchedLineFormat) :
    Except MatchedLineFormat FormatterObj :=
  match lookupFormat factory matched_line_format with
  | none => .error matched_line_format
  | some c => .ok (instantiate c)

/-- The `DefaultMatchedLineFormatter` class. -/
def defaultFormatterClass : FormatterClass :=
  ⟨fun filename n line ivs => some (DefaultMatchedLineFormatter.format filename n line ivs)⟩

/-- The `ColorMatchedLineFormatter` class. -/
def colorFormatterClass : FormatterClass :=
  ⟨fun filename n line ivs => some (ColorMatchedLineFormatter.format filename n line ivs)⟩

/-- The `UnderscoreMatchedLineFormatter` class. -/
def underscoreFormatterClass : FormatterClass :=
  ⟨UnderscoreMatchedLineFormatter.format⟩

/-- The `MachineReadableMatchedLineFormatter` class. -/
def machineFormatterClass : FormatterClass :=
  ⟨fun filename n line ivs => some (MachineReadableMatchedLineFormatter.format filename n line ivs)⟩

/-- The record handed to the formatter for one matching line. -/
structure LineRecord where
  source : List Char
  lineNumber : Nat
  line : List Char
  match_intervals : List (Nat × Nat)
deriving DecidableEq, Repr

/-- An exception aborting the scan. -/
inductive ScanError where
  | patternCompile : ScanError
  | indexError : ScanError
deriving DecidableEq, Repr

/-- Observable outcome of a scan: the printed lines in order, the records
passed to the formatter, the number of input lines read, and the
exception that aborted the scan, if any. -/
structure ScanAcc where
  printed : List (List Char)
  records : List LineRecord
  linesRead : Nat
  error : Option ScanError
deriving DecidableEq, Repr

/-- Prepend the handling of one matching line to a scan outcome. -/
def ScanAcc.afterMatch (out : List Char) (rec : LineRecord) (acc : ScanAcc) :
    ScanAcc :=
  ⟨out :: acc.printed, rec :: acc.records, acc.linesRead + 1, acc.error⟩

/-- Count one read, non-matching line in a scan outcome. -/
def ScanAcc.afterNoMatch (acc : ScanAcc) : ScanAcc :=
  ⟨acc.printed, acc.records, acc.linesRead + 1, acc.error⟩

/-- Scan the lines of one source, numbering them from `n`: strip each raw
line, run `find_pattern_in_string` on it (this re-compiles the pattern,
so an invalid pattern raises only once the first line is processed), and
when the interval list is non-empty format and print the record. -/
def scanLines (pattern : Pattern) (fm : FormatterObj) (src : List Char)
    (n : Nat) : List (List Char) → ScanAcc
  | [] => ⟨[], [], 0, none⟩
  | raw :: rest =>
      match find_pattern_in_string (pyStrip raw) pattern with
      | .error _ => ⟨[], [], 1, some .patternCompile⟩
      | .ok match_intervals =>
          if match_intervals.length > 0 then
            match fm.fmt src n (pyStrip raw) match_intervals with
            | none => ⟨[], [], 1, some .indexError⟩
            | some out =>
                ScanAcc.afterMatch out ⟨src, n, pyStrip raw, match_intervals⟩
                  (scanLines pattern fm src (n + 1) rest)
          else ScanAcc.afterNoMatch (scanLines pattern fm src (n + 1) rest)

/-- Sequential composition of per-source outcomes: an exception while
scanning one source aborts the whole run. -/
def ScanAcc.thenScan (a b : ScanAcc) : ScanAcc :=
  match a.error with
  | some _ => a
  | none => ⟨a.printed ++ b.printed, a.records ++ b.records,
      a.linesRead + b.linesRead, b.error⟩

/-- The `for filename in files` loop of `find_pattern_in_files`: each
source is given with its contents (raw lines, terminators included) and
scanned fully, with line numbers restarting at 1 (`enumerate(f, start=1)`). -/
def scanFiles (pattern : Pattern) (fm : FormatterObj) :
    List (List Char × List (List Char)) → ScanAcc
  | [] => ⟨[], [], 0, none⟩
  | (filename, contents) :: rest =>
      ScanAcc.thenScan (scanLines pattern fm filename 1 contents)
        (scanFiles pattern fm rest)

/-- The factory as populated at the top of `find_pattern_in_files`: the
four classes registered in source order. -/
def theRegistry : MatchedLineFormatterFactory :=
  register_format (register_format (register_format (register_format []
    .DEFAULT defaultFormatterClass) .COLOR colorFormatterClass)
    .UNDERSCORE underscoreFormatterClass) .MACHINE machineFormatterClass

/-- The function `find_pattern_in_files(files, pattern, print_line_format)`.  `files`
maps each filename to its contents (opening a file never fails in this
model); `stdin` is the standard-input contents, read only in the
`files is None` branch, with `"-"` as source identifier and a line
counter incremented from 0 before each line — i.e. numbering from 1,
exactly like the file branch. -/
def find_pattern_in_files (files : Option (List (List Char × List (List Char))))
    (pattern : Pattern) (print_line_format : MatchedLineFormat)
    (stdin : List (List Char)) : Except MatchedLineFormat ScanAcc :=
  match get_formatter theRegistry print_line_format with
  | .error f => .error f
  | .ok fm =>
      match files with
      | some fs => .ok (scanFiles pattern fm fs)
      | none => .ok (scanLines pattern fm ['-'] 1 stdin)

/-- Characterization of the records emitted while scanning one source:
each carries the source identifier, a line number `i` with
`n <= i < n + length(lines)`, the `strip()` of the `(i - n)`-th raw line,
and the (non-empty) intervals the matcher reports on that stripped
text. -/
theorem scanLines_records (pattern : Pattern) (fm : FormatterObj)
    (src : List Char) :
    ∀ (lines : List (List Char)) (n : Nat),
      ∀ rec ∈ (scanLines pattern fm src n lines).records,
        rec.source = src ∧ n ≤ rec.lineNumber ∧
        rec.lineNumber < n + lines.length ∧
        ∃ raw, lines[rec.lineNumber - n]? = some raw ∧
          rec.line = pyStrip raw ∧
          find_pattern_in_string (pyStrip raw) pattern = .ok rec.match_intervals ∧
          rec.match_intervals ≠ [] := by
  intro lines
  induction lines with
  | nil => intro n rec hrec; simp [scanLines] at hrec
  | cons raw rest ih =>
      intro n rec hrec
      simp only [scanLines] at hrec
      split at hrec
      · simp at hrec
      · rename_i ivs hfind
        split at hrec
        · rename_i hlen
          split at hrec
          · simp at hrec
          · rename_i out hfmt
            simp only [ScanAcc.afterMatch] at hrec
            rcases List.mem_cons.mp hrec with rfl | htail
            · refine ⟨rfl, Nat.le_refl _, by simp only [List.length_cons]; omega,
                raw, by simp, rfl, hfind, ?_⟩
              intro hcontra
              have hnil : ivs = [] := hcontra
              rw [hnil] at hlen
              simp at hlen
            · obtain ⟨hsrc, hge, hlt, raw', hidx, hline, hfindr, hne⟩ :=
                ih (n + 1) rec htail
              refine ⟨hsrc, by omega, by simp only [List.length_cons]; omega,
                raw', ?_, hline, hfindr, hne⟩
              have hsub : rec.lineNumber - n = (rec.lineNumber - (n + 1)) + 1 := by
                omega
              rw [hsub, List.getElem?_cons_succ]
              exact hidx
        · simp only [ScanAcc.afterNoMatch] at hrec
          obtain ⟨hsrc, hge, hlt, raw', hidx, hline, hfindr, hne⟩ :=
            ih (n + 1) rec hrec
          refine ⟨hsrc, by omega, by simp only [List.length_cons]; omega,
            raw', ?_, hline, hfindr, hne⟩
          have hsub : rec.lineNumber - n = (rec.lineNumber - (n + 1)) + 1 := by
            omega
          rw [hsub, List.getElem?_cons_succ]
          exact hidx

/-- Every record of a multi-file scan comes from scanning one of the
files (numbered from 1). -/
theorem scanFiles_records (pattern : Pattern) (fm : FormatterObj) :
    ∀ fs : List (List Char × List (List Char)),
      ∀ rec ∈ (scanFiles pattern fm fs).records,
        ∃ fc ∈ fs, rec ∈ (scanLines pattern fm fc.1 1 fc.2).records := by
  intro fs
  induction fs with
  | nil => intro rec h; simp [scanFiles] at h
  | cons fc rest ih =>
      obtain ⟨fname, contents⟩ := fc
      intro rec h
      simp only [scanFiles] at h
      unfold ScanAcc.thenScan at h
      split at h
      · exact ⟨(fname, contents), List.mem_cons_self _ _, h⟩
      · simp only [List.mem_append] at h
        rcases h with ha | hb
        · exact ⟨(fname, contents), List.mem_cons_self _ _, ha⟩
        · obtain ⟨fc', hfc', hrec⟩ := ih rec hb
          exact ⟨fc', List.mem_cons_of_mem _ hfc', hrec⟩

/-- Every format selector resolves successfully against the registry
populated by `find_pattern_in_files`. -/
theorem get_formatter_registry (print_line_format : MatchedLineFormat) :
    ∃ fm : FormatterObj, get_formatter theRegistry print_line_format = .ok fm := by
  cases print_line_format <;> exact ⟨_, rfl⟩

/-- C9: `get_formatter` fails with a `ValueError` carrying the offending
selector whenever the selector has no registered class, and returns an
instance of the (most recently) registered class for a registered
selector. -/
theorem get_formatter_spec (factory : MatchedLineFormatterFactory)
    (matched_line_format : MatchedLineFormat) (c : FormatterClass) :
    (lookupFormat factory matched_line_format = none →
      get_formatter factory matched_line_format = .error matched_line_format) ∧
    get_formatter (register_format factory matched_line_format c)
        matched_line_format = .ok (instantiate c) := by
  constructor
  · intro h
    unfold get_formatter
    rw [h]
  · unfold get_formatter register_format
    simp [lookupFormat]

/-- Witness for `get_formatter_spec`: the empty factory rejects
`DEFAULT`; after registration it resolves to the registered class. -/
theorem get_formatter_spec_witness :
    (get_formatter [] .DEFAULT = .error .DEFAULT) ∧
    get_formatter (register_format [] .DEFAULT defaultFormatterClass) .DEFAULT =
      .ok (instantiate defaultFormatterClass) :=
  ⟨(get_formatter_spec [] .DEFAULT defaultFormatterClass).1 rfl,
   (get_formatter_spec [] .DEFAULT defaultFormatterClass).2⟩

/-- C3 (code bug): the empty pattern does not cause a compile failure —
`re.compile("")` succeeds and the compiled regex matches a zero-width
span at every position — so the run completes without error and prints
output, contradicting the spec and the repository's own unit test
`test_find_pattern_in_string_with_empty_pattern_raises_error` (which
expects a `ValueError`).  Moreover a syntactically invalid pattern
raises only from inside the per-line call to `find_pattern_in_string`,
i.e. after the first line of the source has been read (`linesRead = 1`),
not before any line is read. -/
theorem find_pattern_in_files_empty_pattern_no_error :
    find_pattern_in_files (some [(['f'], [['t', 'e', 'x', 't', '\n']])])
        emptyPattern .DEFAULT [] =
      .ok ⟨[['f', ':', '1', ':', 't', 'e', 'x', 't']],
        [⟨['f'], 1, ['t', 'e', 'x', 't'], [(0, 0), (1, 1), (2, 2), (3, 3), (4, 4)]⟩],
        1, none⟩ ∧
    find_pattern_in_files (some [(['f'], [['t', 'e', 'x', 't', '\n']])])
        .invalid .DEFAULT [] =
      .ok ⟨[], [], 1, some .patternCompile⟩ := ⟨rfl, rfl⟩

/-- C4 (amended: only `files is None` reads standard input — an empty
sources list scans nothing at all): with no sources, every emitted record
is labelled `"-"`, numbered from 1, and produced from the corresponding
standard-input line. -/
theorem find_pattern_in_files_stdin (pattern : Pattern)
    (print_line_format : MatchedLineFormat) (stdin : List (List Char))
    (acc : ScanAcc)
    (h : find_pattern_in_files none pattern print_line_format stdin = .ok acc) :
    ∀ rec ∈ acc.records, rec.source = ['-'] ∧
      1 ≤ rec.lineNumber ∧ rec.lineNumber ≤ stdin.length ∧
      ∃ raw, stdin[rec.lineNumber - 1]? = some raw ∧
        rec.line = pyStrip raw ∧
        find_pattern_in_string (pyStrip raw) pattern = .ok rec.match_intervals := by
  obtain ⟨fm, hfm⟩ := get_formatter_registry print_line_format
  unfold find_pattern_in_files at h
  rw [hfm] at h
  have hacc : acc = scanLines pattern fm ['-'] 1 stdin := (Except.ok.inj h).symm
  subst hacc
  intro rec hrec
  obtain ⟨hsrc, hge, hlt, raw, hidx, hline, hfind, _⟩ :=
    scanLines_records pattern fm ['-'] stdin 1 rec hrec
  exact ⟨hsrc, hge, by omega, raw, hidx, hline, hfind⟩

/-- Witness for `find_pattern_in_files_stdin` on a one-line stdin. -/
theorem find_pattern_in_files_stdin_witness :
    (⟨['-'], 1, ['a'], [(0, 1)]⟩ : LineRecord).source = ['-'] ∧
      1 ≤ (⟨['-'], 1, ['a'], [(0, 1)]⟩ : LineRecord).lineNumber ∧
      (⟨['-'], 1, ['a'], [(0, 1)]⟩ : LineRecord).lineNumber ≤
        [['a', '\n']].length ∧
      ∃ raw, [['a', '\n']][(⟨['-'], 1, ['a'], [(0, 1)]⟩ : LineRecord).lineNumber - 1]? =
          some raw ∧
        (⟨['-'], 1, ['a'], [(0, 1)]⟩ : LineRecord).line = pyStrip raw ∧
        find_pattern_in_string (pyStrip raw) (.valid (.char 'a')) =
          .ok (⟨['-'], 1, ['a'], [(0, 1)]⟩ : LineRecord).match_intervals :=
  find_pattern_in_files_stdin (.valid (.char 'a')) .DEFAULT [['a', '\n']]
    ⟨[['-', ':', '1', ':', 'a']], [⟨['-'], 1, ['a'], [(0, 1)]⟩], 1, none⟩ rfl
    ⟨['-'], 1, ['a'], [(0, 1)]⟩ (List.mem_singleton.mpr rfl)

/-- C4 counterexample: with an explicitly empty sources list the code
takes the `files is not None` branch, iterates over no files, reads
nothing and prints nothing — even though standard input holds a matching
line, which the `None` branch does report. -/
theorem find_pattern_in_files_empty_list_no_stdin :
    find_pattern_in_files (some []) (.valid (.char 'a')) .DEFAULT [['a', '\n']] =
      .ok ⟨[], [], 0, none⟩ ∧
    find_pattern_in_files none (.valid (.char 'a')) .DEFAULT [['a', '\n']] =
      .ok ⟨[['-', ':', '1', ':', 'a']], [⟨['-'], 1, ['a'], [(0, 1)]⟩], 1, none⟩ :=
  ⟨rfl, rfl⟩

/-- All raw lines a run can read, in the scanned order. -/
def allInputLines (files : Option (List (List Char × List (List Char))))
    (stdin : List (List Char)) : List (List Char) :=
  match files with
  | some fs => (fs.map Prod.snd).flatten
  | none => stdin

/-- C8 (amended: the scanner strips with `str.strip()`, not only the
line terminator): the text passed to the matcher and recorded for the
formatter is the raw input line with leading and trailing whitespace —
terminator included — removed, and the intervals are offsets into that
stripped text. -/
theorem find_pattern_in_files_strip
    (files : Option (List (List Char × List (List Char)))) (pattern : Pattern)
    (print_line_format : MatchedLineFormat) (stdin : List (List Char))
    (acc : ScanAcc)
    (h : find_pattern_in_files files pattern print_line_format stdin = .ok acc) :
    ∀ rec ∈ acc.records, ∃ raw ∈ allInputLines files stdin,
      rec.line = pyStrip raw ∧
      find_pattern_in_string rec.line pattern = .ok rec.match_intervals := by
  obtain ⟨fm, hfm⟩ := get_formatter_registry print_line_format
  unfold find_pattern_in_files at h
  rw [hfm] at h
  cases files with
  | none =>
      have hacc : acc = scanLines pattern fm ['-'] 1 stdin := (Except.ok.inj h).symm
      subst hacc
      intro rec hrec
      obtain ⟨_, _, _, raw, hidx, hline, hfind, _⟩ :=
        scanLines_records pattern fm ['-'] stdin 1 rec hrec
      refine ⟨raw, List.getElem?_mem hidx, hline, ?_⟩
      rw [hline]
      exact hfind
  | some fs =>
      have hacc : acc = scanFiles pattern fm fs := (Except.ok.inj h).symm
      subst hacc
      intro rec hrec
      obtain ⟨fc, hfc, hrec2⟩ := scanFiles_records pattern fm fs rec hrec
      obtain ⟨_, _, _, raw, hidx, hline, hfind, _⟩ :=
        scanLines_records pattern fm fc.1 fc.2 1 rec hrec2
      refine ⟨raw, ?_, hline, ?_⟩
      · unfold allInputLines
        exact List.mem_flatten.mpr
          ⟨fc.2, List.mem_map_of_mem Prod.snd hfc, List.getElem?_mem hidx⟩
      · rw [hline]
        exact hfind

/-- Witness for `find_pattern_in_files_strip` on a one-line file. -/
theorem find_pattern_in_files_strip_witness :
    ∃ raw ∈ allInputLines (some [(['f'], [['a', '\n']])]) [],
      (⟨['f'], 1, ['a'], [(0, 1)]⟩ : LineRecord).line = pyStrip raw ∧
      find_pattern_in_string (⟨['f'], 1, ['a'], [(0, 1)]⟩ : LineRecord).line
          (.valid (.char 'a')) =
        .ok (⟨['f'], 1, ['a'], [(0, 1)]⟩ : LineRecord).match_intervals :=
  find_pattern_in_files_strip (some [(['f'], [['a', '\n']])])
    (.valid (.char 'a')) .DEFAULT []
    ⟨[['f', ':', '1', ':', 'a']], [⟨['f'], 1, ['a'], [(0, 1)]⟩], 1, none⟩ rfl
    ⟨['f'], 1, ['a'], [(0, 1)]⟩ (List.mem_singleton.mpr rfl)

/-- The raw line with only its trailing line terminator removed: the
comparison notion used by the specification. -/
def stripLineTerminator (raw : List Char) : List Char :=
  if raw.getLast? = some '\n' then
    if raw.dropLast.getLast? = some '\r' then raw.dropLast.dropLast
    else raw.dropLast
  else raw

/-- C8 counterexample: on the raw line `"  a \n"` the scanner passes
`"a"` to the matcher and formatter — leading and non-terminator trailing
whitespace are removed as well, and the match offset 0 is relative to the
stripped text, not to the line as it appears in the source. -/
theorem scanner_strips_more_than_terminator :
    find_pattern_in_files (some [(['f'], [[' ', ' ', 'a', ' ', '\n']])])
        (.valid (.char 'a')) .DEFAULT [] =
      .ok ⟨[['f', ':', '1', ':', 'a']], [⟨['f'], 1, ['a'], [(0, 1)]⟩], 1, none⟩ ∧
    stripLineTerminator [' ', ' ', 'a', ' ', '\n'] = [' ', ' ', 'a', ' '] ∧
    (['a'] : List Char) ≠ [' ', ' ', 'a', ' '] := by
  refine ⟨rfl, by decide, by decide⟩
